import Mathlib

/-!
Shallow embedding of the PartyScore Karaoke vocal-analysis and scoring engine
(`src/frontend/src/app/app.component.ts`).

Conventions of the embedding:
* JavaScript numbers that stay finite are modelled as exact rationals (`ℚ`);
  decimal literals of the source are written as the exact fractions they
  denote (`0.75` as `75/100`, `0.18` as `18/100`, ...) so that the
  definitions reduce inside the kernel.
* Where the source computes an irrational value (`Math.sqrt`, `Math.log2`,
  the semitone constant `2^(1/12)`) the embedding moves to `ℝ`.
* `Math.round` is `round` (both are `⌊x + 1/2⌋`, also for negative halves).
* `Math.max` / `Math.min` / `Math.abs` on rationals are written as the
  equivalent conditionals `jsMax` / `jsMin` / `jsAbs` below.
* JavaScript `NaN` is modelled by `Option`: `none` is `NaN`, and the
  arithmetic on `Option ℚ` propagates `none` exactly as JS arithmetic
  propagates `NaN` (including `Math.min`/`Math.max`, which return `NaN` when
  either argument is `NaN`, and comparisons, which are `false` on `NaN`).
-/

namespace PartyScore

/-- Embeds `Math.max(a, b)` on (non-`NaN`) numbers. -/
def jsMax (a b : ℚ) : ℚ := if a < b then b else a

/-- Embeds `Math.min(a, b)` on (non-`NaN`) numbers. -/
def jsMin (a b : ℚ) : ℚ := if b < a then b else a

/-- Embeds `Math.abs(q)` on (non-`NaN`) numbers. -/
def jsAbs (q : ℚ) : ℚ := if q < 0 then -q else q

theorem jsMax_eq_max (a b : ℚ) : jsMax a b = max a b := by
  unfold jsMax
  rcases le_or_lt b a with h | h
  · rw [if_neg (not_lt.mpr h), max_eq_left h]
  · rw [if_pos h, max_eq_right h.le]

theorem jsMin_eq_min (a b : ℚ) : jsMin a b = min a b := by
  unfold jsMin
  rcases le_or_lt a b with h | h
  · rw [if_neg (not_lt.mpr h), min_eq_left h]
  · rw [if_pos h, min_eq_right h.le]

theorem jsAbs_eq_abs (q : ℚ) : jsAbs q = |q| := by
  unfold jsAbs
  rcases lt_or_le q 0 with h | h
  · rw [if_pos h, abs_of_neg h]
  · rw [if_neg (not_lt.mpr h), abs_of_nonneg h]

/-- Embeds `clamp01` of the source: `Math.max(0, Math.min(1, v))`, on `ℚ`. -/
def clamp01 (v : ℚ) : ℚ := jsMax 0 (jsMin 1 v)

/-- Embeds `clamp01` of the source on real arguments. -/
def clamp01R (v : ℝ) : ℝ := max 0 (min 1 v)

theorem clamp01_eq (v : ℚ) : clamp01 v = max 0 (min 1 v) := by
  rw [clamp01, jsMin_eq_min, jsMax_eq_max]

/-- Embeds `Math.max(...l)` for a nonempty list (call sites guard emptiness). -/
def listMax : List ℚ → ℚ
  | [] => 0
  | h :: t => t.foldl jsMax h

/-- Embeds `pitches.filter(p => p >= 80 && p <= 800)` from
`computePitchStability` / `computePitchVariety`. -/
def cleanedPitches (pitches : List ℚ) : List ℚ :=
  pitches.filter (fun p => decide (80 ≤ p ∧ p ≤ 800))

/-- Embeds `l.reduce((a, b) => a + b, 0) / l.length`. -/
def meanQ (l : List ℚ) : ℚ := l.sum / l.length

/-- Embeds the population variance of `computePitchStability`:
`cleaned.reduce((acc, p) => acc + (p - mean) ** 2, 0) / cleaned.length`. -/
def variancePop (l : List ℚ) : ℚ :=
  ((l.map (fun p => (p - meanQ l) ^ 2)).sum) / l.length

/-- Embeds `computePitchStability`.  `Math.sqrt` of the (rational) population
variance is `Real.sqrt`, hence the codomain `ℝ`.  The floor `0.35` is the
exact fraction `35/100`. -/
noncomputable def computePitchStability (pitches : List ℚ) : ℝ :=
  if pitches.length < 8 then 35 / 100
  else
    let cleaned := cleanedPitches pitches
    if cleaned.length < 8 then 35 / 100
    else clamp01R (1 - (Real.sqrt ((variancePop cleaned : ℚ) : ℝ) - 15) / 85)

/-- Embeds the move test of `computePitchVariety`:
`ratio = b > a ? b / a : a / b; ratio >= semitone` with
`semitone = 2 ** (1/12)`.  For the positive rationals this is applied to,
`ratio ≥ 2^(1/12)` is equivalent to `ratio^12 ≥ 2` (the map `x ↦ x^12` is
monotone on nonnegatives and `(2^(1/12))^12 = 2`); the equivalence with the
real-valued comparison is proved in `semitoneMoveB_iff` below. -/
def semitoneMoveB (a b : ℚ) : Bool :=
  decide (2 ≤ (if a < b then b / a else a / b) ^ 12)

/-- Embeds the `moves` counter of `computePitchVariety`: the number of
adjacent pairs of the cleaned list that move by at least a semitone. -/
def countMoves (l : List ℚ) : ℕ :=
  (l.zip l.tail).countP (fun ab => semitoneMoveB ab.1 ab.2)

/-- Embeds `computePitchVariety` (the floor `0.2` is `2/10`, the target move
rate `0.18` is `18/100`). -/
def computePitchVariety (pitches : List ℚ) : ℚ :=
  if pitches.length < 8 then 2 / 10
  else
    let cleaned := cleanedPitches pitches
    if cleaned.length < 8 then 2 / 10
    else
      let moveRate : ℚ := (countMoves cleaned : ℚ) / ((max 1 (cleaned.length - 1) : ℕ) : ℚ)
      clamp01 (1 - jsAbs (moveRate - 18 / 100) / (18 / 100))

/-- Embeds the energy sub-score of `computeScore`:
`clamp01(avgEnergy * 0.75 + peakEnergy * 0.25)` where average and peak are `0`
for an empty sample list (the source guards with `energySamples.length ? _ : 0`). -/
def energySubScore (es : List ℚ) : ℚ :=
  let avgEnergy := if es.length = 0 then 0 else es.sum / es.length
  let peakEnergy := if es.length = 0 then 0 else listMax es
  clamp01 (avgEnergy * (75 / 100) + peakEnergy * (25 / 100))

/-- Embeds the result record of `computeScore` (all four fields are produced
by `Math.round`, hence integers). -/
structure ScoreBreakdown where
  score : ℤ
  energy : ℤ
  stability : ℤ
  variety : ℤ
deriving DecidableEq

/-- Embeds `computeScore` (mix weights `0.45`, `0.35`, `0.20` written as exact
fractions). -/
noncomputable def computeScore (energySamples pitchSamples : List ℚ) : ScoreBreakdown :=
  let energyScore := energySubScore energySamples
  let stabilityScore := computePitchStability pitchSamples
  let varietyScore := computePitchVariety pitchSamples
  let raw : ℝ := (energyScore : ℝ) * (45 / 100) + stabilityScore * (35 / 100)
    + (varietyScore : ℝ) * (20 / 100)
  { score := round (clamp01R raw * 100)
    energy := round (energyScore * 100)
    stability := round (stabilityScore * 100)
    variety := round (varietyScore * 100) }

/-! ### The NaN-aware frame analysis (`loop` / `estimatePitchHz`)

`none` models the JavaScript `NaN` (for samples: also a frame slot read as
`undefined`); arithmetic and comparisons propagate it exactly as JS does. -/

/-- Embeds `+` with JS `NaN` propagation. -/
def jsAdd : Option ℚ → Option ℚ → Option ℚ
  | some a, some b => some (a + b)
  | _, _ => none

/-- Embeds binary `-` with JS `NaN` propagation. -/
def jsSub : Option ℚ → Option ℚ → Option ℚ
  | some a, some b => some (a - b)
  | _, _ => none

/-- Embeds `*` with JS `NaN` propagation. -/
def jsMul : Option ℚ → Option ℚ → Option ℚ
  | some a, some b => some (a * b)
  | _, _ => none

/-- Embeds the running sum `for (...) sum += buf[i]` (mean numerator). -/
def jsSum (l : List (Option ℚ)) : Option ℚ := l.foldl jsAdd (some 0)

/-- Embeds the running sum of squares `sum += v * v` (RMS numerator). -/
def jsSumSq (l : List (Option ℚ)) : Option ℚ :=
  l.foldl (fun acc x => jsAdd acc (jsMul x x)) (some 0)

/-- Embeds `x / n` where `n` is a JS array length.  At both call sites the
numerator is a fold over that same array, so when `n = 0` the numerator is
exactly `some 0` and JS computes `0 / 0 = NaN`, i.e. `none`. -/
def jsDivLen (x : Option ℚ) (n : ℕ) : Option ℚ :=
  match x with
  | none => none
  | some q => if n = 0 then none else some (q / n)

/-- Embeds `buf[i]` for an integer index: out-of-range JS indexing yields
`undefined`, which behaves as `NaN` in the arithmetic it feeds. -/
def jsGet (buf : List (Option ℚ)) (i : ℤ) : Option ℚ :=
  if h : 0 ≤ i ∧ i.toNat < buf.length then buf.get ⟨i.toNat, h.2⟩ else none

/-- Embeds a `<`-comparison against a constant; JS comparisons with `NaN`
are `false`. -/
def jsLtB : Option ℚ → ℚ → Bool
  | some q, c => decide (q < c)
  | none, _ => false

/-- Embeds the energy computation of `loop`:
`rms = Math.sqrt(sum / len); energy = clamp01(rms * 4.0)`.
`Math.sqrt` forces `ℝ`; the argument of the square root is a mean of squares,
hence nonnegative whenever it is not `NaN`, so `Real.sqrt` agrees with
`Math.sqrt` on every reachable input.  `Math.min`/`Math.max` return `NaN` on a
`NaN` argument, which is exactly the `Option.map` behaviour here. -/
noncomputable def loopEnergy (frame : List (Option ℚ)) : Option ℝ :=
  (jsDivLen (jsSumSq frame) frame.length).map
    (fun m : ℚ => max 0 (min 1 (Real.sqrt ((m : ℚ) : ℝ) * 4)))

/-- Embeds the inner correlation loop of `estimatePitchHz` for one `lag`:
`for (i = 0; i < buf.length - lag; i++) corr += (buf[i]-mean)*(buf[i+lag]-mean)`. -/
def corrAt (buf : List (Option ℚ)) (mean : Option ℚ) (lag : ℤ) : Option ℚ :=
  (List.range ((buf.length : ℤ) - lag).toNat).foldl
    (fun acc (i : ℕ) =>
      jsAdd acc (jsMul (jsSub (jsGet buf (i : ℤ)) mean) (jsSub (jsGet buf ((i : ℤ) + lag)) mean)))
    (some 0)

/-- The integer interval `[minLag, maxLag]` scanned by the `for (lag = ...)`
loop of `estimatePitchHz`. -/
def lagList (minLag maxLag : ℤ) : List ℤ :=
  (List.range (maxLag - minLag + 1).toNat).map (fun i : ℕ => minLag + (i : ℤ))

/-- Embeds one iteration of the best-lag scan:
`if (corr > bestCorr) { bestCorr = corr; bestLag = lag }`; a `NaN` correlation
compares `false` and leaves the state unchanged.  The state is
`(bestCorr, bestLag)`, started at `(0, -1)`. -/
def scanStep (buf : List (Option ℚ)) (mean : Option ℚ) (st : ℚ × ℤ) (lag : ℤ) : ℚ × ℤ :=
  match corrAt buf mean lag with
  | some c => if st.1 < c then (c, lag) else st
  | none => st

/-- Embeds the full best-lag scan of `estimatePitchHz`. -/
def pitchScan (buf : List (Option ℚ)) (mean : Option ℚ) (lags : List ℤ) : ℚ × ℤ :=
  lags.foldl (scanStep buf mean) (0, -1)

/-- Embeds `estimatePitchHz`.  The silence gate `rms < 0.015` is written on
the mean square: for a non-`NaN` mean square `m ≥ 0`,
`Math.sqrt(m) < 0.015  ↔  m < 0.015² = 9/40000` (the square root is monotone),
and on `NaN` both comparisons are `false`; this keeps the definition inside
`ℚ`.  The trailing `Number.isFinite(hz)` test of the source always passes
here: `sampleRate` is a finite rational and `bestLag ≥ 1` on that branch. -/
def estimatePitchHz (buf : List (Option ℚ)) (sampleRate : ℚ) : Option ℚ :=
  let minLag : ℤ := ⌊sampleRate / 800⌋
  let maxLag : ℤ := ⌊sampleRate / 80⌋
  if jsLtB (jsDivLen (jsSumSq buf) buf.length) (9 / 40000) then none
  else
    let mean := jsDivLen (jsSum buf) buf.length
    let best := pitchScan buf mean (lagList minLag maxLag)
    if best.2 ≤ 0 then none
    else some (sampleRate / (best.2 : ℚ))

/-- Embeds the per-frame measurement produced by the analysis part of `loop`
(energy and pitch of the current frame). -/
structure FrameMeasurement where
  energy : Option ℝ
  pitchHz : Option ℚ

/-- Embeds the analysis portion of `loop`: energy from the RMS and pitch from
`estimatePitchHz`, on the same frame. -/
noncomputable def analyzeFrame (frame : List (Option ℚ)) (sampleRate : ℚ) : FrameMeasurement :=
  { energy := loopEnergy frame, pitchHz := estimatePitchHz frame sampleRate }

/-! ### The note mapper (`hzToNote`) -/

/-- Helper spelling a sharpened note name. -/
def sharp (s : String) : String := s ++ "#"

/-- Embeds the `noteNames` array of `hzToNote`:
`['C','C#','D','D#','E','F','F#','G','G#','A','A#','B']`. -/
def noteNames : List String :=
  ["C", sharp "C", "D", sharp "D", "E", "F", sharp "F",
    "G", sharp "G", "A", sharp "A", "B"]

/-- Embeds JS array indexing by a (possibly negative) integer: `undefined`
out of range, modelled by `none`. -/
def jsIndex (l : List String) (i : ℤ) : Option String :=
  if h : 0 ≤ i ∧ i.toNat < l.length then some (l.get ⟨i.toNat, h.2⟩) else none

/-- Embeds `midi = 69 + Math.round(12 * Math.log2(hz / A4))` of `hzToNote`. -/
noncomputable def midiOf (hz : ℝ) : ℤ :=
  69 + round (12 * Real.logb 2 (hz / 440))

/-- Embeds `noteNames[(midi + 1200) % 12]` of `hzToNote`.  JS `%` is the
truncating remainder (sign of the dividend), i.e. `Int.tmod`; a negative
index reads `undefined` from the array. -/
noncomputable def noteNameOf (hz : ℝ) : Option String :=
  jsIndex noteNames ((midiOf hz + 1200).tmod 12)

/-- Embeds `hzToNote`: the template string renders an `undefined` lookup as
the text `undefined`, and `octave = Math.floor(midi / 12) - 1` is the floor
division `Int.fdiv`. -/
noncomputable def hzToNote (hz : ℝ) : String :=
  ((noteNameOf hz).getD "undefined") ++ toString ((midiOf hz).fdiv 12 - 1)

/-! ### The round session and the leaderboard -/

/-- Embeds the `stage` field of the component. -/
inductive Stage
  | onboarding
  | ready
  | singing
  | results
deriving DecidableEq

/-- Embeds the `mode` field of a leaderboard entry. -/
inductive EntryMode
  | localGame
  | challenge
deriving DecidableEq

/-- Embeds `ScoreEntry` of the source. -/
structure ScoreEntry where
  name : String
  score : ℤ
  ts : ℤ
  mode : EntryMode
deriving DecidableEq

/-- Embeds the component state touched by the round lifecycle and the
leaderboard (`micReady` models `analyser !== null && timeData !== undefined`,
`timerArmed` models `roundTimerId !== null`; fields of the component that no
claim mentions — live meters, error text, confetti, personal best — are not
modelled). -/
structure SessionState where
  stage : Stage
  micReady : Bool
  secondsLeft : ℤ
  energySamples : List ℚ
  pitchSamples : List ℚ
  timerArmed : Bool
  lastRound : Option ScoreBreakdown
  playerName : String
  challengeScore : Option ℤ
  leaderboard : List ScoreEntry

/-- Embeds `startRound`: guarded by the mic being ready, it resets the clock
to 10, clears the last round and both sample buffers, enters `singing` and
(re)arms the 1-second interval. -/
def startRound (s : SessionState) : SessionState :=
  if s.micReady = false then s
  else
    { s with
      stage := Stage.singing
      secondsLeft := 10
      lastRound := none
      energySamples := []
      pitchSamples := []
      timerArmed := true }

/-- Embeds `stopRound` (the abort path): disarm the interval and fall back to
`ready` (or `onboarding` without a mic). -/
def stopRound (s : SessionState) : SessionState :=
  { s with
    timerArmed := false
    stage := if s.micReady then Stage.ready else Stage.onboarding }

/-- Embeds `(this.playerName || 'Player').trim().slice(0, 18)`. -/
def displayName (n : String) : String :=
  (if n = "" then "Player" else n).trim.take 18

/-- Embeds the leaderboard comparator `(a, b) => b.score - a.score || b.ts - a.ts`
as the Boolean relation `a` sorts no later than `b`: higher score first, ties
by the more recent timestamp first. -/
def leaderboardLe (a b : ScoreEntry) : Bool :=
  decide (b.score < a.score ∨ (a.score = b.score ∧ b.ts ≤ a.ts))

/-- Embeds the leaderboard update of `finishRound`:
`unshift(entry)`, stable `sort` by the comparator, `slice(0, 25)`. -/
def updateLeaderboard (entry : ScoreEntry) (board : List ScoreEntry) : List ScoreEntry :=
  ((entry :: board).mergeSort leaderboardLe).take 25

/-- Embeds `finishRound` (`now` stands for `Date.now()`): disarm the timer,
score the accumulated samples, publish the summary, enter `results`, and
re-insert into the leaderboard. -/
noncomputable def finishRound (now : ℤ) (s : SessionState) : SessionState :=
  let breakdown := computeScore s.energySamples s.pitchSamples
  let entry : ScoreEntry :=
    { name := displayName s.playerName
      score := breakdown.score
      ts := now
      mode := if s.challengeScore.isSome then EntryMode.challenge else EntryMode.localGame }
  { s with
    timerArmed := false
    lastRound := some breakdown
    stage := Stage.results
    leaderboard := updateLeaderboard entry s.leaderboard }

/-! ### Supporting lemmas -/

/-- The spec-side ordering of the leaderboard: score descending, ties broken
by the more recent timestamp first. -/
def leaderboardRel (a b : ScoreEntry) : Prop :=
  b.score < a.score ∨ (a.score = b.score ∧ b.ts ≤ a.ts)

theorem leaderboardLe_eq_true_iff (a b : ScoreEntry) :
    leaderboardLe a b = true ↔ leaderboardRel a b := by
  simp [leaderboardLe, leaderboardRel]

theorem leaderboardLe_trans (a b c : ScoreEntry)
    (hab : leaderboardLe a b = true) (hbc : leaderboardLe b c = true) :
    leaderboardLe a c = true := by
  simp only [leaderboardLe, decide_eq_true_eq] at *
  omega

theorem leaderboardLe_total (a b : ScoreEntry) :
    (leaderboardLe a b || leaderboardLe b a) = true := by
  simp only [leaderboardLe, Bool.or_eq_true, decide_eq_true_eq]
  omega

theorem updateLeaderboard_length_le (e : ScoreEntry) (b : List ScoreEntry) :
    (updateLeaderboard e b).length ≤ 25 :=
  List.length_take_le 25 _

theorem updateLeaderboard_sorted (e : ScoreEntry) (b : List ScoreEntry) :
    List.Sorted leaderboardRel (updateLeaderboard e b) := by
  have hsorted : List.Pairwise (fun x y => leaderboardLe x y = true)
      ((e :: b).mergeSort leaderboardLe) :=
    List.sorted_mergeSort (fun x y z => leaderboardLe_trans x y z)
      leaderboardLe_total (e :: b)
  have htake := List.Pairwise.sublist (List.take_sublist 25 _) hsorted
  exact htake.imp (fun h => (leaderboardLe_eq_true_iff _ _).mp h)

theorem jsMax_self (a : ℚ) : jsMax a a = a := by
  simp [jsMax]

theorem foldl_jsMax_replicate (n : ℕ) (a : ℚ) :
    (List.replicate n a).foldl jsMax a = a := by
  induction n with
  | zero => rfl
  | succ k ih => rw [List.replicate_succ, List.foldl_cons, jsMax_self]; exact ih

/-- A fold whose step destroys `none` accumulators stays `none`: the model of
`NaN`-absorbing running sums. -/
theorem foldl_none_of_step {α : Type} (f : Option ℚ → α → Option ℚ)
    (hf : ∀ x, f none x = none) (l : List α) : l.foldl f none = none := by
  induction l with
  | nil => rfl
  | cons x t ih => rw [List.foldl_cons, hf]; exact ih

theorem jsSumSq_map_some (l : List ℚ) (a : ℚ) :
    (l.map some).foldl (fun acc x => jsAdd acc (jsMul x x)) (some a) =
      some (l.foldl (fun acc v => acc + v * v) a) := by
  induction l generalizing a with
  | nil => rfl
  | cons v t ih => simpa [jsAdd, jsMul] using ih (a + v * v)

/-! ### C3: frame energy stays inside the unit interval -/

/-- C3: for every frame of genuine (finite) samples — including samples
clipping at `±1` — the energy the loop computes (RMS of the samples, times
the fixed gain `4.0`, then clamped) is a defined value in `[0, 1]`: never
negative and never above `1`.  (The empty and `NaN` frames are the degenerate
inputs treated separately by the error-handling claim.) -/
theorem frame_energy_in_unit_interval (frame : List ℚ) (h : frame ≠ []) :
    ∃ e : ℝ, loopEnergy (frame.map some) = some e ∧ 0 ≤ e ∧ e ≤ 1 := by
  have hsum := jsSumSq_map_some frame 0
  have hlen : (frame.map some).length ≠ 0 := by
    simpa using fun hcon => h (List.eq_nil_of_length_eq_zero hcon)
  refine ⟨max 0 (min 1
    (Real.sqrt (((frame.foldl (fun acc v => acc + v * v) 0) / (frame.map some).length : ℚ)) * 4)),
    ?_, le_max_left _ _, ?_⟩
  · rw [loopEnergy, jsSumSq, hsum, jsDivLen, if_neg hlen, Option.map_some']
  · exact max_le zero_le_one (min_le_left _ _)

/-- Witness for C3 at the clipping frame `[1, -1]`. -/
theorem frame_energy_in_unit_interval_witness :
    ([(1 : ℚ), -1] ≠ []) ∧
      ∃ e : ℝ, loopEnergy ([(1 : ℚ), -1].map some) = some e ∧ 0 ≤ e ∧ e ≤ 1 :=
  ⟨by simp, frame_energy_in_unit_interval [1, -1] (by simp)⟩

/-! ### C6: scoring empty sample sequences is total and bounded -/

/-- C6: scoring two empty sample sequences is a defined total computation (in
this embedding there is nothing to raise; the source guards every division by
a length) and produces the documented floors: energy `0`, stability `35`,
variety `20`, and the correspondingly low final score `16`; all four fields
lie in `[0, 100]`. -/
theorem score_empty_is_defined :
    computeScore [] [] = ⟨16, 0, 35, 20⟩ ∧
    (0 ≤ (computeScore [] []).score ∧ (computeScore [] []).score ≤ 100) ∧
    (0 ≤ (computeScore [] []).energy ∧ (computeScore [] []).energy ≤ 100) ∧
    (0 ≤ (computeScore [] []).stability ∧ (computeScore [] []).stability ≤ 100) ∧
    (0 ≤ (computeScore [] []).variety ∧ (computeScore [] []).variety ≤ 100) := by
  have h : computeScore [] [] = ⟨16, 0, 35, 20⟩ := by
    simp only [computeScore, energySubScore, computePitchStability, computePitchVariety]
    norm_num [clamp01, clamp01R, jsMax, jsMin, round_eq, ScoreBreakdown.mk.injEq]
  rw [h]
  norm_num

/-! ### C8: start-abort-start leaves no stale samples -/

/-- C8: with the microphone ready, the sequence `start(); abort(); start()`
always ends with both sample buffers empty and the clock reset to 10 — the
second `start()` re-clears everything, so no sample of the aborted round can
leak into the new one. -/
theorem start_abort_start_resets (s : SessionState) (h : s.micReady = true) :
    (startRound (stopRound (startRound s))).energySamples = [] ∧
    (startRound (stopRound (startRound s))).pitchSamples = [] ∧
    (startRound (stopRound (startRound s))).secondsLeft = 10 := by
  simp [startRound, stopRound, h]

/-- Witness for C8 on a state carrying stale samples from a previous round. -/
theorem start_abort_start_resets_witness :
    (SessionState.micReady
        ⟨Stage.results, true, 3, [1/2], [200], true, none, "p", none, []⟩ = true) ∧
    ((startRound (stopRound (startRound
        ⟨Stage.results, true, 3, [1/2], [200], true, none, "p", none, []⟩))).energySamples = [] ∧
      (startRound (stopRound (startRound
        ⟨Stage.results, true, 3, [1/2], [200], true, none, "p", none, []⟩))).pitchSamples = [] ∧
      (startRound (stopRound (startRound
        ⟨Stage.results, true, 3, [1/2], [200], true, none, "p", none, []⟩))).secondsLeft = 10) :=
  ⟨rfl, start_abort_start_resets _ rfl⟩

/-! ### C9: leaderboard cap and ordering -/

/-- C9: every round finalization re-establishes the leaderboard invariant —
at most 25 entries, ordered by score descending with ties broken by the most
recent timestamp first — and the same holds for each insertion taken alone. -/
theorem leaderboard_cap_and_order (now : ℤ) (s : SessionState) :
    (finishRound now s).leaderboard.length ≤ 25 ∧
    List.Sorted leaderboardRel (finishRound now s).leaderboard ∧
    ∀ (e : ScoreEntry) (b : List ScoreEntry),
      (updateLeaderboard e b).length ≤ 25 ∧
      List.Sorted leaderboardRel (updateLeaderboard e b) := by
  refine ⟨?_, ?_, fun e b => ⟨updateLeaderboard_length_le e b, updateLeaderboard_sorted e b⟩⟩
  · exact updateLeaderboard_length_le _ _
  · exact updateLeaderboard_sorted _ _

/-! ### C4: the stability sub-score -/

theorem cleanedPitches_length_le (ps : List ℚ) :
    (cleanedPitches ps).length ≤ ps.length :=
  List.length_filter_le _ _

theorem clamp01R_mono {a b : ℝ} (h : a ≤ b) : clamp01R a ≤ clamp01R b :=
  max_le_max le_rfl (min_le_min le_rfl h)

theorem computePitchStability_of_ge (ps : List ℚ) (h : 8 ≤ (cleanedPitches ps).length) :
    computePitchStability ps =
      clamp01R (1 - (Real.sqrt ((variancePop (cleanedPitches ps) : ℚ) : ℝ) - 15) / 85) := by
  have hps : ¬ ps.length < 8 :=
    not_lt.mpr (le_trans h (cleanedPitches_length_le ps))
  simp only [computePitchStability, if_neg hps, if_neg (not_lt.mpr h)]

/-- C4: whenever at least 8 filtered samples remain in `[80, 800]` Hz, the
stability sub-score is exactly `clamp01(1 - (std - 15)/85)` of the population
standard deviation of the filtered values, and is therefore non-increasing as
that standard deviation grows (filtered sample count held fixed); with fewer
than 8 filtered samples it is the fixed floor `0.35`. -/
theorem stability_formula_and_antitone :
    (∀ ps : List ℚ, (cleanedPitches ps).length < 8 →
      computePitchStability ps = 35 / 100) ∧
    (∀ ps : List ℚ, 8 ≤ (cleanedPitches ps).length →
      computePitchStability ps =
        clamp01R (1 - (Real.sqrt ((variancePop (cleanedPitches ps) : ℚ) : ℝ) - 15) / 85)) ∧
    (∀ ps qs : List ℚ, 8 ≤ (cleanedPitches ps).length → 8 ≤ (cleanedPitches qs).length →
      (cleanedPitches ps).length = (cleanedPitches qs).length →
      Real.sqrt ((variancePop (cleanedPitches ps) : ℚ) : ℝ) ≤
        Real.sqrt ((variancePop (cleanedPitches qs) : ℚ) : ℝ) →
      computePitchStability qs ≤ computePitchStability ps) := by
  refine ⟨fun ps h => ?_, fun ps h => computePitchStability_of_ge ps h,
    fun ps qs hp hq _ hstd => ?_⟩
  · by_cases hps : ps.length < 8
    · simp only [computePitchStability, if_pos hps]
    · simp only [computePitchStability, if_neg hps, if_pos h]
  · rw [computePitchStability_of_ge ps hp, computePitchStability_of_ge qs hq]
    exact clamp01R_mono (by linarith)

/-- Witness for C4: a flat 8-sample sequence (std 0) scores no worse than an
8-sample sequence spread between 100 and 300 Hz (std 100). -/
theorem stability_formula_and_antitone_witness :
    8 ≤ (cleanedPitches (List.replicate 8 (100 : ℚ))).length ∧
    8 ≤ (cleanedPitches [100, 100, 100, 100, 300, 300, 300, (300 : ℚ)]).length ∧
    (cleanedPitches (List.replicate 8 (100 : ℚ))).length =
      (cleanedPitches [100, 100, 100, 100, 300, 300, 300, (300 : ℚ)]).length ∧
    Real.sqrt ((variancePop (cleanedPitches (List.replicate 8 (100 : ℚ))) : ℚ) : ℝ) ≤
      Real.sqrt ((variancePop
        (cleanedPitches [100, 100, 100, 100, 300, 300, 300, (300 : ℚ)]) : ℚ) : ℝ) ∧
    computePitchStability [100, 100, 100, 100, 300, 300, 300, (300 : ℚ)] ≤
      computePitchStability (List.replicate 8 (100 : ℚ)) := by
  have h1 : 8 ≤ (cleanedPitches (List.replicate 8 (100 : ℚ))).length := by
    norm_num [cleanedPitches, List.filter_replicate]
  have h2 : 8 ≤ (cleanedPitches [100, 100, 100, 100, 300, 300, 300, (300 : ℚ)]).length := by
    norm_num [cleanedPitches, List.filter]
  have h3 : (cleanedPitches (List.replicate 8 (100 : ℚ))).length =
      (cleanedPitches [100, 100, 100, 100, 300, 300, 300, (300 : ℚ)]).length := by
    norm_num [cleanedPitches, List.filter_replicate, List.filter]
  have h4 : Real.sqrt ((variancePop (cleanedPitches (List.replicate 8 (100 : ℚ))) : ℚ) : ℝ) ≤
      Real.sqrt ((variancePop
        (cleanedPitches [100, 100, 100, 100, 300, 300, 300, (300 : ℚ)]) : ℚ) : ℝ) :=
    Real.sqrt_le_sqrt (by
      norm_num [cleanedPitches, List.filter_replicate, List.filter, variancePop, meanQ,
        List.sum_replicate, List.map_replicate])
  exact ⟨h1, h2, h3, h4,
    stability_formula_and_antitone.2.2 (List.replicate 8 (100 : ℚ))
      [100, 100, 100, 100, 300, 300, 300, (300 : ℚ)] h1 h2 h3 h4⟩

/-! ### C5: the variety sub-score -/

/-- The spec-side move rate: the fraction of adjacent filtered pairs that
move by at least a semitone (the `max 1` guard of the source is inert once at
least 8 filtered samples exist). -/
def moveRateOf (l : List ℚ) : ℚ := (countMoves l : ℚ) / ((l.length - 1 : ℕ) : ℚ)

/-- The spec-side triangular reward: `clamp01(1 - |moveRate - 0.18| / 0.18)`. -/
def varietyFromRate (m : ℚ) : ℚ := clamp01 (1 - |m - 18 / 100| / (18 / 100))

theorem clamp01_of_mem {q : ℚ} (h0 : 0 ≤ q) (h1 : q ≤ 1) : clamp01 q = q := by
  rw [clamp01_eq, min_eq_right h1, max_eq_right h0]

theorem clamp01R_of_mem {x : ℝ} (h0 : 0 ≤ x) (h1 : x ≤ 1) : clamp01R x = x := by
  rw [clamp01R, min_eq_right h1, max_eq_right h0]

theorem clamp01R_of_ge_one {x : ℝ} (h : 1 ≤ x) : clamp01R x = 1 := by
  rw [clamp01R, min_eq_left h, max_eq_right zero_le_one]

theorem varietyFromRate_zero : varietyFromRate 0 = 0 := by
  rw [varietyFromRate]
  norm_num [clamp01_eq, abs_of_nonneg]

theorem computePitchVariety_of_ge (ps : List ℚ) (h : 8 ≤ (cleanedPitches ps).length) :
    computePitchVariety ps = varietyFromRate (moveRateOf (cleanedPitches ps)) := by
  have hps : ¬ ps.length < 8 :=
    not_lt.mpr (le_trans h (cleanedPitches_length_le ps))
  have hmax : max 1 ((cleanedPitches ps).length - 1) = (cleanedPitches ps).length - 1 :=
    max_eq_right (by omega)
  simp only [computePitchVariety, if_neg hps, if_neg (not_lt.mpr h), hmax,
    varietyFromRate, moveRateOf, jsAbs_eq_abs]

theorem semitone_pow_iff (r : ℚ) (hr : 0 ≤ r) :
    (2 : ℝ) ^ ((1 : ℝ) / 12) ≤ (r : ℝ) ↔ (2 : ℚ) ≤ r ^ 12 := by
  have hbase : (0 : ℝ) ≤ (2 : ℝ) ^ ((1 : ℝ) / 12) := Real.rpow_nonneg (by norm_num) _
  have hpow : ((2 : ℝ) ^ ((1 : ℝ) / 12)) ^ (12 : ℕ) = 2 := by
    rw [← Real.rpow_natCast ((2 : ℝ) ^ ((1 : ℝ) / 12)) 12, ← Real.rpow_mul (by norm_num)]
    norm_num
  constructor
  · intro h
    have := pow_le_pow_left hbase h 12
    rw [hpow] at this
    exact_mod_cast this
  · intro h
    by_contra hlt
    push_neg at hlt
    have hrr : (0 : ℝ) ≤ (r : ℝ) := by exact_mod_cast hr
    have := pow_lt_pow_left hlt hrr (by norm_num : (12 : ℕ) ≠ 0)
    rw [hpow] at this
    have h2 : (2 : ℝ) ≤ ((r : ℝ)) ^ (12 : ℕ) := by exact_mod_cast h
    linarith

/-- C5: with at least 8 filtered samples the variety sub-score is exactly
`clamp01(1 - |moveRate - 0.18| / 0.18)`, where `moveRate` is the fraction of
adjacent filtered pairs whose larger/smaller ratio is at least `2^(1/12)`
(equivalently, whose 12th power is at least 2); the reward is `1` exactly at
move rate `0.18`, falls symmetrically on both sides, and is `0` at move rate
`0` and at every move rate `≥ 0.36`; below 8 filtered samples the sub-score
is the fixed floor `0.2`. -/
theorem variety_formula_and_peak :
    (∀ ps : List ℚ, (cleanedPitches ps).length < 8 →
      computePitchVariety ps = 2 / 10) ∧
    (∀ ps : List ℚ, 8 ≤ (cleanedPitches ps).length →
      computePitchVariety ps = varietyFromRate (moveRateOf (cleanedPitches ps))) ∧
    (∀ a b : ℚ, 0 < a → 0 < b →
      (semitoneMoveB a b = true ↔
        (2 : ℝ) ^ ((1 : ℝ) / 12) ≤ (((if a < b then b / a else a / b) : ℚ) : ℝ))) ∧
    varietyFromRate (18 / 100) = 1 ∧
    (∀ m : ℚ, varietyFromRate m = 1 → m = 18 / 100) ∧
    varietyFromRate 0 = 0 ∧
    (∀ m : ℚ, 36 / 100 ≤ m → varietyFromRate m = 0) ∧
    (∀ d : ℚ, varietyFromRate (18 / 100 + d) = varietyFromRate (18 / 100 - d)) := by
  refine ⟨fun ps h => ?_, fun ps h => computePitchVariety_of_ge ps h, fun a b ha hb => ?_,
    ?_, fun m h => ?_, varietyFromRate_zero, fun m h => ?_, fun d => ?_⟩
  · by_cases hps : ps.length < 8
    · simp only [computePitchVariety, if_pos hps]
    · simp only [computePitchVariety, if_neg hps, if_pos h]
  · have hr : (0 : ℚ) ≤ (if a < b then b / a else a / b) := by
      split
      · exact (div_pos hb ha).le
      · exact (div_pos ha hb).le
    rw [semitoneMoveB, decide_eq_true_eq, ← semitone_pow_iff _ hr]
  · rw [varietyFromRate]
    norm_num [clamp01_eq]
  · rw [varietyFromRate, clamp01_eq] at h
    set x := 1 - |m - 18 / 100| / (18 / 100) with hx
    have hy : min 1 x = 1 := by
      rcases max_choice (0 : ℚ) (min 1 x) with hc | hc
      · rw [hc] at h; norm_num at h
      · rw [hc] at h; exact h
    have hxe : 1 ≤ x := min_eq_left_iff.mp hy
    have hdiv : |m - 18 / 100| / (18 / 100) ≤ 0 := by rw [hx] at hxe; linarith
    have habs : |m - 18 / 100| ≤ 0 := by
      rcases div_nonpos_iff.mp hdiv with ⟨_, hb⟩ | ⟨ha, _⟩
      · norm_num at hb
      · exact ha
    have : m - 18 / 100 = 0 := abs_eq_zero.mp (le_antisymm habs (abs_nonneg _))
    linarith
  · rw [varietyFromRate, clamp01_eq]
    have habs : |m - 18 / 100| = m - 18 / 100 := abs_of_nonneg (by linarith)
    have hx : 1 - |m - 18 / 100| / (18 / 100) ≤ 0 := by
      rw [habs]
      have : (1 : ℚ) ≤ (m - 18 / 100) / (18 / 100) :=
        (le_div_iff (by norm_num : (0:ℚ) < 18 / 100)).mpr (by linarith)
      linarith
    rw [min_eq_right (le_trans hx zero_le_one), max_eq_left hx]
  · have habs : |18 / 100 + d - 18 / 100| = |18 / 100 - d - 18 / 100| := by
      have h1 : 18 / 100 + d - 18 / 100 = d := by ring
      have h2 : 18 / 100 - d - 18 / 100 = -d := by ring
      rw [h1, h2, abs_neg]
    rw [varietyFromRate, varietyFromRate, habs]

/-- Witness for C5 on a 9-sample flat sequence (all filtered samples kept). -/
theorem variety_formula_and_peak_witness :
    8 ≤ (cleanedPitches (List.replicate 9 (150 : ℚ))).length ∧
    computePitchVariety (List.replicate 9 (150 : ℚ)) =
      varietyFromRate (moveRateOf (cleanedPitches (List.replicate 9 (150 : ℚ)))) := by
  have h : 8 ≤ (cleanedPitches (List.replicate 9 (150 : ℚ))).length := by
    norm_num [cleanedPitches, List.filter_replicate]
  exact ⟨h, variety_formula_and_peak.2.1 (List.replicate 9 (150 : ℚ)) h⟩

/-! ### C1: the final score formula and the end-to-end scenario -/

theorem foldl_jsMax_self (t : List ℚ) (a : ℚ) :
    (List.replicate t.length a).foldl jsMax a = a :=
  foldl_jsMax_replicate t.length a

theorem energySubScore_replicate_ten :
    energySubScore (List.replicate 10 (6 / 10 : ℚ)) = 6 / 10 := by
  have hrep : List.replicate 10 (6 / 10 : ℚ) = (6 / 10 : ℚ) :: List.replicate 9 (6 / 10) := rfl
  have hmax : listMax (List.replicate 10 (6 / 10 : ℚ)) = 6 / 10 := by
    rw [hrep]
    simp only [listMax]
    exact foldl_jsMax_replicate 9 _
  simp only [energySubScore, hmax, List.length_replicate, List.sum_replicate]
  norm_num
  rw [clamp01_of_mem (by norm_num) (by norm_num)]

theorem cleanedPitches_replicate_ten :
    cleanedPitches (List.replicate 10 (200 : ℚ)) = List.replicate 10 200 := by
  norm_num [cleanedPitches, List.filter_replicate]

theorem variancePop_replicate_ten : variancePop (List.replicate 10 (200 : ℚ)) = 0 := by
  norm_num [variancePop, meanQ, List.sum_replicate, List.map_replicate]

theorem stability_replicate_ten :
    computePitchStability (List.replicate 10 (200 : ℚ)) = 1 := by
  rw [computePitchStability_of_ge _ (by rw [cleanedPitches_replicate_ten]; norm_num),
    cleanedPitches_replicate_ten, variancePop_replicate_ten]
  rw [Rat.cast_zero, Real.sqrt_zero]
  exact clamp01R_of_ge_one (by norm_num)

theorem semitoneMoveB_self (a : ℚ) (h : a ≠ 0) : semitoneMoveB a a = false := by
  rw [semitoneMoveB, if_neg (lt_irrefl a), div_self h, decide_eq_false_iff_not]
  norm_num

theorem replicate_zip_tail (a : ℚ) (m : ℕ) :
    (List.replicate (m + 1) a).zip (List.replicate m a) = List.replicate m (a, a) := by
  induction m with
  | zero => rfl
  | succ k ih =>
    rw [List.replicate_succ a (k + 1), List.replicate_succ a k,
      List.zip_cons_cons, ← List.replicate_succ, ih, List.replicate_succ]

theorem countP_replicate_zero {α : Type} (p : α → Bool) (x : α) (h : p x = false) :
    ∀ n : ℕ, (List.replicate n x).countP p = 0 := by
  intro n
  induction n with
  | zero => rfl
  | succ k ih => rw [List.replicate_succ, List.countP_cons, ih, h]; rfl

theorem countMoves_replicate (a : ℚ) (h : semitoneMoveB a a = false) (m : ℕ) :
    countMoves (List.replicate (m + 1) a) = 0 := by
  have hzip : (List.replicate (m + 1) a).zip (List.replicate (m + 1) a).tail
      = List.replicate m (a, a) := by
    conv_lhs => rw [List.replicate_succ, List.tail_cons, ← List.replicate_succ]
    exact replicate_zip_tail a m
  unfold countMoves
  rw [hzip]
  have h2 : (fun ab : ℚ × ℚ => semitoneMoveB ab.1 ab.2) (a, a) = false := by
    simpa using h
  exact countP_replicate_zero (fun ab : ℚ × ℚ => semitoneMoveB ab.1 ab.2) (a, a) h2 m

theorem variety_replicate_ten :
    computePitchVariety (List.replicate 10 (200 : ℚ)) = 0 := by
  rw [computePitchVariety_of_ge _ (by rw [cleanedPitches_replicate_ten]; norm_num),
    cleanedPitches_replicate_ten]
  have hmoves : countMoves (List.replicate 10 (200 : ℚ)) = 0 :=
    countMoves_replicate 200 (semitoneMoveB_self 200 (by norm_num)) 9
  rw [moveRateOf, hmoves]
  norm_num [varietyFromRate_zero]

/-- C1: for every pair of sample sequences the final score is
`round(100 · clamp01(0.45·energy + 0.35·stability + 0.20·variety))` over the
unrounded sub-scores, and the breakdown reports each sub-score independently
rounded to an integer percentage; in particular a round of 10 frames of
energy `0.6` and constant pitch `200` Hz scores
`{score 62, energy 60, stability 100, variety 0}`. -/
theorem final_score_formula :
    (∀ es ps : List ℚ,
      (computeScore es ps).score =
        round (100 * clamp01R ((45 / 100) * (energySubScore es : ℝ)
          + (35 / 100) * computePitchStability ps
          + (20 / 100) * (computePitchVariety ps : ℝ))) ∧
      (computeScore es ps).energy = round (100 * (energySubScore es : ℚ)) ∧
      (computeScore es ps).stability = round (100 * computePitchStability ps) ∧
      (computeScore es ps).variety = round (100 * (computePitchVariety ps : ℚ))) ∧
    computeScore (List.replicate 10 (6 / 10)) (List.replicate 10 200) = ⟨62, 60, 100, 0⟩ := by
  constructor
  · intro es ps
    refine ⟨?_, ?_, ?_, ?_⟩
    · simp only [computeScore]
      rw [show (energySubScore es : ℝ) * (45 / 100) + computePitchStability ps * (35 / 100)
          + (computePitchVariety ps : ℝ) * (20 / 100)
          = (45 / 100) * (energySubScore es : ℝ) + (35 / 100) * computePitchStability ps
          + (20 / 100) * (computePitchVariety ps : ℝ) by ring, mul_comm]
    · simp only [computeScore]; rw [mul_comm]
    · simp only [computeScore]; rw [mul_comm]
    · simp only [computeScore]; rw [mul_comm]
  · simp only [computeScore, energySubScore_replicate_ten, stability_replicate_ten,
      variety_replicate_ten, ScoreBreakdown.mk.injEq]
    refine ⟨?_, ?_, ?_, ?_⟩
    · rw [show ((6 / 10 : ℚ) : ℝ) * (45 / 100) + 1 * (35 / 100) + ((0 : ℚ) : ℝ) * (20 / 100)
          = 62 / 100 by push_cast; ring]
      rw [clamp01R_of_mem (by norm_num) (by norm_num)]
      norm_num [round_eq]
    · norm_num [round_eq]
    · norm_num [round_eq]
    · norm_num [round_eq]

/-! ### C2: degenerate frames (empty or containing NaN) -/

theorem jsAdd_none_left (x : Option ℚ) : jsAdd none x = none := by
  cases x <;> rfl

theorem jsAdd_none_right (x : Option ℚ) : jsAdd x none = none := by
  cases x <;> rfl

theorem jsSub_none_right (x : Option ℚ) : jsSub x none = none := by
  cases x <;> rfl

theorem jsMul_none_left (x : Option ℚ) : jsMul none x = none := by
  cases x <;> rfl

theorem jsSum_of_mem_none {l : List (Option ℚ)} (h : none ∈ l) : jsSum l = none := by
  rw [jsSum]
  suffices hgen : ∀ (t : List (Option ℚ)) (acc : Option ℚ), none ∈ t →
      t.foldl jsAdd acc = none by exact hgen l (some 0) h
  intro t
  induction t with
  | nil => intro acc hacc; cases hacc
  | cons x r ih =>
    intro acc hacc
    rcases List.mem_cons.mp hacc with hx | hr
    · rw [List.foldl_cons, ← hx, jsAdd_none_right]
      exact foldl_none_of_step _ jsAdd_none_left r
    · exact ih _ hr

theorem jsSumSq_of_mem_none {l : List (Option ℚ)} (h : none ∈ l) : jsSumSq l = none := by
  rw [jsSumSq]
  suffices hgen : ∀ (t : List (Option ℚ)) (acc : Option ℚ), none ∈ t →
      t.foldl (fun acc x => jsAdd acc (jsMul x x)) acc = none by exact hgen l (some 0) h
  intro t
  induction t with
  | nil => intro acc hacc; cases hacc
  | cons x r ih =>
    intro acc hacc
    rcases List.mem_cons.mp hacc with hx | hr
    · rw [List.foldl_cons, ← hx, jsMul_none_left, jsAdd_none_right]
      exact foldl_none_of_step _ (fun y => jsAdd_none_left (jsMul y y)) r
    · exact ih _ hr

/-- The mean square (and the mean) the analysis divides out is `NaN` exactly
on the degenerate frames: empty (`0 / 0`) or containing a `NaN` sample. -/
theorem jsDivLen_degenerate (frame : List (Option ℚ))
    (h : frame = [] ∨ none ∈ frame) :
    jsDivLen (jsSumSq frame) frame.length = none ∧
      jsDivLen (jsSum frame) frame.length = none := by
  rcases h with rfl | hmem
  · exact ⟨rfl, rfl⟩
  · rw [jsSumSq_of_mem_none hmem, jsSum_of_mem_none hmem]
    exact ⟨rfl, rfl⟩

theorem corrAt_mean_none (buf : List (Option ℚ)) (lag : ℤ) :
    corrAt buf none lag = some 0 ∨ corrAt buf none lag = none := by
  rw [corrAt]
  cases hn : ((buf.length : ℤ) - lag).toNat with
  | zero => left; rfl
  | succ k =>
    right
    rw [List.range_succ_eq_map]
    simp only [List.foldl_cons, jsSub_none_right, jsMul_none_left, jsAdd_none_right]
    exact foldl_none_of_step _ (fun i => rfl) _

theorem pitchScan_mean_none (buf : List (Option ℚ)) (lags : List ℤ) :
    pitchScan buf none lags = (0, -1) := by
  rw [pitchScan]
  induction lags with
  | nil => rfl
  | cons lag t ih =>
    rw [List.foldl_cons]
    have hstep : scanStep buf none (0, -1) lag = (0, -1) := by
      rw [scanStep]
      rcases corrAt_mean_none buf lag with hc | hc <;> rw [hc]
      simp
    rw [hstep]
    exact ih

/-- C2 (amended): on a degenerate frame — empty, or containing a `NaN`
sample — the pitch estimate is indeed `null`, but the energy is **`NaN`**,
not `0`: the loop computes `clamp01(Math.sqrt(NaN) * 4) = NaN` because
`Math.min`/`Math.max` propagate `NaN`, and nothing defends the energy path. -/
theorem degenerate_frame_behavior (frame : List (Option ℚ)) (sr : ℚ)
    (h : frame = [] ∨ none ∈ frame) :
    (analyzeFrame frame sr).pitchHz = none ∧ (analyzeFrame frame sr).energy = none := by
  obtain ⟨hmsq, hmean⟩ := jsDivLen_degenerate frame h
  constructor
  · show estimatePitchHz frame sr = none
    rw [estimatePitchHz]
    simp only [hmsq, hmean]
    rw [pitchScan_mean_none]
    norm_num [jsLtB]
  · show loopEnergy frame = none
    rw [loopEnergy, hmsq, Option.map_none']

/-- Witness for C2 (amended) at the empty frame. -/
theorem degenerate_frame_behavior_witness :
    (([] : List (Option ℚ)) = [] ∨ none ∈ ([] : List (Option ℚ))) ∧
    (analyzeFrame [] 44100).pitchHz = none ∧ (analyzeFrame [] 44100).energy = none :=
  ⟨Or.inl rfl, degenerate_frame_behavior [] 44100 (Or.inl rfl)⟩

/-- Counterexample to C2 as stated: a frame holding a single `NaN` sample is
analyzed to `pitchHz = null` but `energy = NaN` — not the silent measurement
`{energy: 0, pitchHz: null}` the claim promises. -/
theorem degenerate_frame_energy_not_silent :
    (analyzeFrame [none] 44100).pitchHz = none ∧
    (analyzeFrame [none] 44100).energy = none ∧
    (analyzeFrame [none] 44100).energy ≠ some 0 := by
  have hmem : (none : Option ℚ) ∈ [(none : Option ℚ)] := List.mem_cons_self _ _
  obtain ⟨hmsq, hmean⟩ := jsDivLen_degenerate [none] (Or.inr hmem)
  refine ⟨?_, ?_, ?_⟩
  · show estimatePitchHz [none] 44100 = none
    rw [estimatePitchHz]
    simp only [hmsq, hmean]
    rw [pitchScan_mean_none]
    norm_num [jsLtB]
  · show loopEnergy [none] = none
    rw [loopEnergy, hmsq, Option.map_none']
  · show loopEnergy [none] ≠ some 0
    rw [loopEnergy, hmsq, Option.map_none']
    exact fun hcon => Option.noConfusion hcon

/-! ### C7: totality of the note mapper -/

/-- C7 (amended): `hzToNote` produces a well-formed note name (an entry of
`noteNames`) followed by the octave number for every `hz > 0` whose MIDI
number is at least `-1200` — the `+1200` bias makes the biased remainder
non-negative exactly down to that point (which covers every audible
frequency), not for arbitrarily small positive `hz`. -/
theorem hzToNote_wellformed_above_bias (hz : ℝ) (h0 : 0 < hz)
    (hbias : -1200 ≤ midiOf hz) :
    ∃ s, noteNameOf hz = some s ∧ s ∈ noteNames ∧
      hzToNote hz = s ++ toString ((midiOf hz).fdiv 12 - 1) := by
  have hnn : 0 ≤ midiOf hz + 1200 := by omega
  have h0i : 0 ≤ (midiOf hz + 1200).tmod 12 := Int.tmod_nonneg 12 hnn
  have h12 : (midiOf hz + 1200).tmod 12 < 12 :=
    Int.tmod_lt_of_pos _ (by norm_num)
  have hlt : ((midiOf hz + 1200).tmod 12).toNat < noteNames.length := by
    show _ < 12
    omega
  refine ⟨noteNames.get ⟨((midiOf hz + 1200).tmod 12).toNat, hlt⟩, ?_, ?_, ?_⟩
  · rw [noteNameOf, jsIndex, dif_pos ⟨h0i, hlt⟩]
  · exact List.get_mem _ _ _
  · rw [hzToNote, noteNameOf, jsIndex, dif_pos ⟨h0i, hlt⟩, Option.getD_some]

theorem midiOf_440 : midiOf (440 : ℝ) = 69 := by
  rw [midiOf, show (440 : ℝ) / 440 = 1 by norm_num, Real.logb_one]
  norm_num

/-- Witness for C7 (amended) at A4 = 440 Hz. -/
theorem hzToNote_wellformed_above_bias_witness :
    (0 : ℝ) < 440 ∧ -1200 ≤ midiOf 440 ∧
    ∃ s, noteNameOf 440 = some s ∧ s ∈ noteNames ∧
      hzToNote 440 = s ++ toString ((midiOf (440 : ℝ)).fdiv 12 - 1) :=
  ⟨by norm_num, by rw [midiOf_440]; norm_num,
    hzToNote_wellformed_above_bias 440 (by norm_num) (by rw [midiOf_440]; norm_num)⟩

/-- Counterexample to C7 as stated: `hz = 440 · 2⁻²⁰⁰` is positive, yet its
MIDI number is `-2331`, the biased value `-1131` is still negative, the JS
truncating `%` returns `-3`, and `noteNames[-3]` is `undefined` — no
well-formed note name results, so the `+1200` bias does **not** cover every
positive `hz`. -/
theorem hzToNote_undefined_for_tiny_hz :
    (0 : ℝ) < 440 * 2 ^ (-200 : ℤ) ∧
    midiOf ((440 : ℝ) * 2 ^ (-200 : ℤ)) = -2331 ∧
    noteNameOf ((440 : ℝ) * 2 ^ (-200 : ℤ)) = none := by
  have hdiv : ((440 : ℝ) * 2 ^ (-200 : ℤ)) / 440 = 2 ^ (-200 : ℤ) := by
    rw [mul_comm, mul_div_assoc, div_self (by norm_num : (440 : ℝ) ≠ 0), mul_one]
  have hlog : Real.logb 2 (((440 : ℝ) * 2 ^ (-200 : ℤ)) / 440) = -200 := by
    rw [hdiv, show ((2 : ℝ) ^ (-200 : ℤ)) = (2 : ℝ) ^ ((-200 : ℤ) : ℝ) from
      (Real.rpow_intCast 2 (-200)).symm, Real.logb_rpow (by norm_num) (by norm_num)]
    norm_num
  have hmidi : midiOf ((440 : ℝ) * 2 ^ (-200 : ℤ)) = -2331 := by
    rw [midiOf, hlog]
    norm_num [round_eq]
  refine ⟨by positivity, hmidi, ?_⟩
  rw [noteNameOf, hmidi]
  rw [show ((-2331 + 1200 : ℤ)).tmod 12 = -3 by decide]
  rw [jsIndex, dif_neg]
  rintro ⟨hcon, -⟩
  omega

/-! ### C10: range of the pitch estimator output -/

theorem jsAdd_some (a b : ℚ) : jsAdd (some a) (some b) = some (a + b) := rfl

theorem jsSub_some (a b : ℚ) : jsSub (some a) (some b) = some (a - b) := rfl

theorem jsMul_some (a b : ℚ) : jsMul (some a) (some b) = some (a * b) := rfl

theorem jsDivLen_some (q : ℚ) (n : ℕ) :
    jsDivLen (some q) n = if n = 0 then none else some (q / n) := rfl

theorem mem_lagList {a b lag : ℤ} (h : lag ∈ lagList a b) : a ≤ lag ∧ lag ≤ b := by
  rw [lagList] at h
  rcases List.mem_map.mp h with ⟨i, hi, rfl⟩
  have := List.mem_range.mp hi
  omega

theorem scanStep_snd (buf : List (Option ℚ)) (mean : Option ℚ) (st : ℚ × ℤ) (lag : ℤ) :
    (scanStep buf mean st lag).2 = st.2 ∨ (scanStep buf mean st lag).2 = lag := by
  rw [scanStep]
  cases corrAt buf mean lag with
  | none => exact Or.inl rfl
  | some c =>
    dsimp only
    split
    · exact Or.inr rfl
    · exact Or.inl rfl

theorem foldl_scanStep_snd (buf : List (Option ℚ)) (mean : Option ℚ) :
    ∀ (lags : List ℤ) (st : ℚ × ℤ),
      (lags.foldl (scanStep buf mean) st).2 = st.2 ∨
        (lags.foldl (scanStep buf mean) st).2 ∈ lags := by
  intro lags
  induction lags with
  | nil => intro st; exact Or.inl rfl
  | cons a t ih =>
    intro st
    rw [List.foldl_cons]
    rcases ih (scanStep buf mean st a) with h | h
    · rcases scanStep_snd buf mean st a with h2 | h2
      · exact Or.inl (h.trans h2)
      · exact Or.inr (by rw [h, h2]; exact List.mem_cons_self _ _)
    · exact Or.inr (List.mem_cons_of_mem _ h)

theorem corrAt_of_len_le (buf : List (Option ℚ)) (mean : Option ℚ) (lag : ℤ)
    (h : (buf.length : ℤ) ≤ lag) : corrAt buf mean lag = some 0 := by
  rw [corrAt, Int.toNat_of_nonpos (by omega), List.range_zero, List.foldl_nil]

theorem foldl_scanStep_const (buf : List (Option ℚ)) (mean : Option ℚ) (st : ℚ × ℤ) :
    ∀ lags : List ℤ, (∀ lag ∈ lags, scanStep buf mean st lag = st) →
      lags.foldl (scanStep buf mean) st = st := by
  intro lags
  induction lags with
  | nil => intro _; rfl
  | cons a t ih =>
    intro h
    rw [List.foldl_cons, h a (List.mem_cons_self _ _)]
    exact ih fun lag hl => h lag (List.mem_cons_of_mem _ hl)

theorem lagList_cons (a b : ℤ) (h : a ≤ b) : lagList a b = a :: lagList (a + 1) b := by
  rw [lagList, lagList, show (b - a + 1).toNat = (b - (a + 1) + 1).toNat + 1 by omega,
    List.range_succ_eq_map, List.map_cons, List.map_map]
  congr 1
  · simp
  · have hfun : ((fun i : ℕ => a + (i : ℤ)) ∘ Nat.succ) = fun i : ℕ => (a + 1) + (i : ℤ) := by
      funext i
      simp only [Function.comp]
      push_cast
      ring
    rw [hfun]

/-- A synthetic frame with impulses at samples 0 and 55 (length 56): at a
44100 Hz sample rate the autocorrelation peaks at lag 55, one lag below the
nominal 800 Hz bound `sampleRate / 55 ≈ 801.8 Hz`. -/
def spikeBuf : List (Option ℚ) := some 1 :: (List.replicate 54 (some 0) ++ [some 1])

theorem spikeBuf_length : spikeBuf.length = 56 := by
  simp [spikeBuf]

theorem foldlsq_replicate_zero : ∀ (n : ℕ) (a : ℚ),
    (List.replicate n (some 0)).foldl (fun acc x => jsAdd acc (jsMul x x)) (some a) = some a := by
  intro n
  induction n with
  | zero => intro a; rfl
  | succ k ih =>
    intro a
    rw [List.replicate_succ, List.foldl_cons, jsMul_some, jsAdd_some,
      show (a + 0 * 0 : ℚ) = a by ring]
    exact ih a

theorem foldladd_replicate_zero : ∀ (n : ℕ) (a : ℚ),
    (List.replicate n (some 0)).foldl jsAdd (some a) = some a := by
  intro n
  induction n with
  | zero => intro a; rfl
  | succ k ih =>
    intro a
    rw [List.replicate_succ, List.foldl_cons, jsAdd_some, show (a + 0 : ℚ) = a by ring]
    exact ih a

theorem jsSumSq_spike : jsSumSq spikeBuf = some 2 := by
  rw [jsSumSq, spikeBuf, List.foldl_cons, List.foldl_append]
  rw [jsMul_some, jsAdd_some, show (0 + 1 * 1 : ℚ) = 1 by ring]
  rw [foldlsq_replicate_zero 54 1, List.foldl_cons, List.foldl_nil]
  rw [jsMul_some, jsAdd_some]
  norm_num

theorem jsSum_spike : jsSum spikeBuf = some 2 := by
  rw [jsSum, spikeBuf, List.foldl_cons, List.foldl_append]
  rw [jsAdd_some, show (0 + 1 : ℚ) = 1 by ring]
  rw [foldladd_replicate_zero 54 1, List.foldl_cons, List.foldl_nil, jsAdd_some]
  norm_num

theorem meanSq_spike : jsDivLen (jsSumSq spikeBuf) spikeBuf.length = some (1 / 28) := by
  rw [jsSumSq_spike, spikeBuf_length, jsDivLen_some, if_neg (by norm_num)]
  norm_num

theorem mean_spike : jsDivLen (jsSum spikeBuf) spikeBuf.length = some (1 / 28) := by
  rw [jsSum_spike, spikeBuf_length, jsDivLen_some, if_neg (by norm_num)]
  norm_num

theorem corrAt_spike_55 : corrAt spikeBuf (some (1 / 28)) 55 = some (729 / 784) := by
  have h1 : jsGet spikeBuf (((0 : ℕ) : ℤ)) = some 1 := rfl
  have h2 : jsGet spikeBuf (((0 : ℕ) : ℤ) + 55) = some 1 := rfl
  rw [corrAt, spikeBuf_length, show (((56 : ℕ) : ℤ) - 55).toNat = 1 by rfl,
    show List.range 1 = [0] from rfl]
  simp only [List.foldl_cons, List.foldl_nil, h1, h2, jsSub_some, jsMul_some, jsAdd_some]
  norm_num

theorem pitchScan_spike :
    pitchScan spikeBuf (some (1 / 28)) (lagList 55 551) = (729 / 784, 55) := by
  rw [lagList_cons 55 551 (by norm_num), pitchScan, List.foldl_cons]
  have hstep : scanStep spikeBuf (some (1 / 28)) (0, -1) 55 = (729 / 784, 55) := by
    rw [scanStep, corrAt_spike_55]
    dsimp only
    rw [if_pos (by norm_num : (0 : ℚ) < 729 / 784)]
  rw [hstep]
  apply foldl_scanStep_const
  intro lag hl
  have hb := (mem_lagList hl).1
  rw [scanStep, corrAt_of_len_le spikeBuf _ lag (by rw [spikeBuf_length]; omega)]
  dsimp only
  rw [if_neg (by norm_num : ¬ (729 / 784 : ℚ) < 0)]

theorem estimatePitchHz_spike : estimatePitchHz spikeBuf 44100 = some (8820 / 11) := by
  have hlt : jsLtB (some (1 / 28 : ℚ)) (9 / 40000) = false := by
    rw [show jsLtB (some (1 / 28 : ℚ)) (9 / 40000) = decide ((1 / 28 : ℚ) < 9 / 40000) from rfl,
      decide_eq_false_iff_not]
    norm_num
  simp only [estimatePitchHz]
  rw [meanSq_spike, hlt, if_neg Bool.false_ne_true, mean_spike,
    show ⌊(44100 : ℚ) / 800⌋ = 55 by norm_num, show ⌊(44100 : ℚ) / 80⌋ = 551 by norm_num,
    pitchScan_spike]
  rw [if_neg (by norm_num : ¬ ((729 / 784, (55 : ℤ)).2 ≤ 0))]
  norm_num

/-- C10: whenever the estimator returns a frequency at a sample rate of at
least 800 Hz, that frequency is `sampleRate / lag` for a lag inside
`[⌊sampleRate/800⌋, ⌊sampleRate/80⌋]`, hence at least 80 Hz — but it can
exceed 800 Hz because the lower lag bound is floored (at 44100 Hz the spike
frame yields `44100 / 55 = 8820/11 ≈ 801.8 Hz`); such over-range values are
excluded from scoring by the `[80, 800]` pitch filter. -/
theorem pitch_estimate_lag_bounds :
    (∀ (buf : List (Option ℚ)) (sr : ℚ), 800 ≤ sr → ∀ hz : ℚ,
      estimatePitchHz buf sr = some hz →
      (∃ lag : ℤ, ⌊sr / 800⌋ ≤ lag ∧ lag ≤ ⌊sr / 80⌋ ∧ 0 < lag ∧ hz = sr / (lag : ℚ)) ∧
        80 ≤ hz) ∧
    (estimatePitchHz spikeBuf 44100 = some (8820 / 11) ∧ (800 : ℚ) < 8820 / 11) ∧
    (∀ (ps : List ℚ) (p : ℚ), 800 < p → p ∉ cleanedPitches ps) := by
  refine ⟨?_, ⟨estimatePitchHz_spike, by norm_num⟩, ?_⟩
  · intro buf sr hsr hz hsome
    simp only [estimatePitchHz] at hsome
    split_ifs at hsome with h1 h2
    · have hzeq : hz = sr /
          (((pitchScan buf (jsDivLen (jsSum buf) buf.length)
            (lagList ⌊sr / 800⌋ ⌊sr / 80⌋)).2 : ℤ) : ℚ) :=
        (Option.some.inj hsome).symm
      set bestLag : ℤ := (pitchScan buf (jsDivLen (jsSum buf) buf.length)
        (lagList ⌊sr / 800⌋ ⌊sr / 80⌋)).2 with hbest
      have hpos : 0 < bestLag := by omega
      have hmem : bestLag ∈ lagList ⌊sr / 800⌋ ⌊sr / 80⌋ := by
        rcases foldl_scanStep_snd buf (jsDivLen (jsSum buf) buf.length)
          (lagList ⌊sr / 800⌋ ⌊sr / 80⌋) (0, -1) with hcase | hcase
        · rw [pitchScan] at hbest
          omega
        · rw [pitchScan] at hbest
          rw [hbest]
          exact hcase
      obtain ⟨hlo, hhi⟩ := mem_lagList hmem
      refine ⟨⟨bestLag, hlo, hhi, hpos, hzeq⟩, ?_⟩
      have hposq : (0 : ℚ) < (bestLag : ℚ) := by exact_mod_cast hpos
      have hle80 : (bestLag : ℚ) ≤ sr / 80 := by
        calc (bestLag : ℚ) ≤ (⌊sr / 80⌋ : ℚ) := by exact_mod_cast hhi
          _ ≤ sr / 80 := Int.floor_le _
      rw [hzeq]
      rw [le_div_iff hposq]
      have h80 : (80 : ℚ) * (sr / 80) = sr := by ring
      nlinarith [hle80, hposq]
  · intro ps p hp hmem
    rw [cleanedPitches] at hmem
    have hcond := List.mem_filter.mp hmem
    rw [decide_eq_true_eq] at hcond
    exact absurd hcond.2.2 (by linarith)

/-- Witness for C10 at the spike frame and 44100 Hz. -/
theorem pitch_estimate_lag_bounds_witness :
    (800 : ℚ) ≤ 44100 ∧ estimatePitchHz spikeBuf 44100 = some (8820 / 11) ∧
    ((∃ lag : ℤ, ⌊(44100 : ℚ) / 800⌋ ≤ lag ∧ lag ≤ ⌊(44100 : ℚ) / 80⌋ ∧ 0 < lag ∧
        (8820 / 11 : ℚ) = 44100 / (lag : ℚ)) ∧
      (80 : ℚ) ≤ 8820 / 11) :=
  ⟨by norm_num, pitch_estimate_lag_bounds.2.1.1,
    pitch_estimate_lag_bounds.1 spikeBuf 44100 (by norm_num) (8820 / 11)
      pitch_estimate_lag_bounds.2.1.1⟩

end PartyScore
